import Mathlib

set_option maxHeartbeats 1000000
set_option maxRecDepth 40000

/-
Shallow embedding of the worksheet-filler PDF overlay core, translated from
src/app.py (find_prompt_anchor, overlay_answers_on_pdf) and
src/worksheet_filler.py (find_question_anchor, overlay_answers_on_pdf).
Coordinates are rationals; a word carries exactly the fields the code reads
(text, x0, bottom).  External effects are made explicit: a possible exception
inside the per-page merge step is an oracle mergeFails : Nat → Bool, and the
worksheet_filler variant, whose merge is unguarded, returns Except.
-/

/-- A word extracted from a page, with the fields the source reads:
its text, left edge x0 and bottom edge (top-left-origin coordinates). -/
structure Word where
  text : String
  x0 : ℚ
  bottom : ℚ
deriving DecidableEq

/-- A page: its extracted words and its geometry (PDF points). -/
structure Page where
  words : List Word
  width : ℚ
  height : ℚ
deriving DecidableEq

/-- A prompt/answer item consumed by app.py (dict keys prompt and answer;
a missing or None value is modelled as the empty string, which is how the
code's item.get(..., "") or "" normalises it). -/
structure Item where
  prompt : String
  answer : String
deriving DecidableEq

/-- A question/answer item consumed by worksheet_filler.py (dict keys
question and answer; a missing key is modelled as the empty string). -/
structure QA where
  question : String
  answer : String
deriving DecidableEq

/-- One canvas.drawString(x, y, line) call recorded as data. -/
structure DrawInstruction where
  x : ℚ
  y : ℚ
  line : String
deriving DecidableEq

/-- An output page: either input page i passed through unchanged, or
input page i with an overlay of draw instructions merged on top. -/
inductive OutPage where
  | original (i : Nat)
  | merged (i : Nat) (instrs : List DrawInstruction)
deriving DecidableEq

/-- Index of the input page an output page came from. -/
def OutPage.idx : OutPage → Nat
  | .original i => i
  | .merged i _ => i

/-- Helper for Python str.split() with no argument: accumulate the current
word (reversed) and split on whitespace runs, producing no empty pieces. -/
def splitWsAux : List Char → List Char → List (List Char)
  | [], cur => if cur.isEmpty then [] else [cur.reverse]
  | c :: cs, cur =>
    if c.isWhitespace then
      if cur.isEmpty then splitWsAux cs [] else cur.reverse :: splitWsAux cs []
    else splitWsAux cs (c :: cur)

/-- Python s.split() with no argument: whitespace-separated tokens. -/
def tokens (s : String) : List String := (splitWsAux s.data []).map String.mk

/-- Membership in the punctuation set of str.strip(".,?!:;"). -/
def isPunctChar (c : Char) : Bool :=
  c = '.' || c = ',' || c = '?' || c = '!' || c = ':' || c = ';'

/-- Python w.strip(".,?!:;").lower(): drop those characters from both ends,
then lowercase. -/
def clean (s : String) : String :=
  let l := s.data.dropWhile isPunctChar
  String.mk (((l.reverse.dropWhile isPunctChar).reverse).map Char.toLower)

/-- Helper for Python s.split on a newline separator, keeping empty pieces. -/
def splitNlAux : List Char → List Char → List String
  | [], cur => [String.mk cur.reverse]
  | c :: cs, cur =>
    if c = '\n' then String.mk cur.reverse :: splitNlAux cs []
    else splitNlAux cs (c :: cur)

/-- Python answer_text.split with separator a newline. -/
def splitNl (s : String) : List String := splitNlAux s.data []

/-- Greedy line filling for pyWrap: place each word on the current line when
it fits in the width (counting one separating space), else start a new line. -/
def pyWrapGo (width : Nat) : List String → String → List String
  | [], cur => if cur = "" then [] else [cur]
  | w :: ws, cur =>
    if cur = "" then pyWrapGo width ws w
    else if cur.length + 1 + w.length ≤ width then pyWrapGo width ws (cur ++ " " ++ w)
    else cur :: pyWrapGo width ws w

/-- Modelled from Python textwrap.wrap with default options, for texts whose
individual words do not exceed the width: whitespace (including embedded
newlines) separates words, words are greedily packed into lines joined by
single spaces, and an empty or all-whitespace text yields no lines. -/
def pyWrap (width : Nat) (text : String) : List String := pyWrapGo width (tokens text) ""

/-- Window score: number of position-aligned equal tokens,
sum(1 for a, b in zip(snippet, window_clean) if a == b). -/
def scoreWindow (snippet window : List String) : Nat :=
  (snippet.zip window).countP fun p => decide (p.1 = p.2)

/-- Scores of every sliding window of length k over the page words (each
window is punctuation-stripped and lowercased; the snippet already is).
The Python loop range(0, len(page_words) - snippet_len + 1) is empty when
the page has fewer than k words, matching length + 1 - k in Nat. -/
def windowScores (pageWords snippet : List String) (k : Nat) : List Nat :=
  (List.range (pageWords.length + 1 - k)).map fun i =>
    scoreWindow snippet (((pageWords.drop i).take k).map clean)

/-- The selection loop over window scores, starting from best_index = None
and best_score = 0, updating only on a strictly greater score. -/
def pickBest : List Nat → Nat → Option Nat → Nat → Option Nat × Nat
  | [], _, bi, bs => (bi, bs)
  | s :: rest, i, bi, bs =>
    if bs < s then pickBest rest (i + 1) (some i) s
    else pickBest rest (i + 1) bi bs

/-- Maximum of a list of naturals (0 for the empty list). -/
def maxList (l : List Nat) : Nat := l.foldr max 0

/-- Index of the first occurrence of v in l (length of l when absent). -/
def firstIdx (v : Nat) : List Nat → Nat
  | [] => 0
  | a :: t => if a = v then 0 else firstIdx v t + 1

/-- snippet_len = min(len(p_words), 6) in app.py find_prompt_anchor. -/
def appK (p : String) : Nat := min (tokens p).length 6

/-- The cleaned snippet of the first appK prompt tokens (app.py). -/
def appSnippet (p : String) : List String := ((tokens p).take (appK p)).map clean

/-- The window scores find_prompt_anchor computes for a word list. -/
def appScores (words : List Word) (p : String) : List Nat :=
  windowScores (words.map Word.text) (appSnippet p) (appK p)

/-- words[best_index : best_index + snippet_len] in app.py. -/
def appWindowAt (words : List Word) (p : String) (i : Nat) : List Word :=
  (words.drop i).take (appK p)

/-- min(w.x0 for w in l): left fold of min over a nonempty list
(0 for the empty list, which the code never reaches). -/
def minX0 : List Word → ℚ
  | [] => 0
  | w :: ws => ws.foldl (fun m u => min m u.x0) w.x0

/-- max(w.bottom for w in l), dually. -/
def maxBottom : List Word → ℚ
  | [] => 0
  | w :: ws => ws.foldl (fun m u => max m u.bottom) w.bottom

/-- app.py find_prompt_anchor: slide a window of the snippet length over the
page words, keep the first window of strictly maximal score, accept only when
the best score reaches max(3, snippet_len - 1), and anchor at the window's
minimal x0 and the page height minus its maximal bottom. -/
def find_prompt_anchor (words : List Word) (page_height : ℚ) (prompt_text : String) :
    Option (ℚ × ℚ) :=
  if words = [] then none
  else if tokens prompt_text = [] then none
  else if appSnippet prompt_text = [] then none
  else
    match pickBest (appScores words prompt_text) 0 none 0 with
    | (none, _) => none
    | (some best_index, best_score) =>
      if best_score < max 3 (appK prompt_text - 1) then none
      else
        some (minX0 (appWindowAt words prompt_text best_index),
              page_height - maxBottom (appWindowAt words prompt_text best_index))

/-- snippet_len = min(len(q_words), 5) in worksheet_filler.py. -/
def wfK (q : String) : Nat := min (tokens q).length 5

/-- The cleaned snippet of the first wfK question tokens. -/
def wfSnippet (q : String) : List String := ((tokens q).take (wfK q)).map clean

/-- The window scores find_question_anchor computes for a word list. -/
def wfScores (words : List Word) (q : String) : List Nat :=
  windowScores (words.map Word.text) (wfSnippet q) (wfK q)

/-- Placeholder word for the total list accessor; the code only indexes
in bounds. -/
def dWord : Word := ⟨"", 0, 0⟩

/-- worksheet_filler.py find_question_anchor: same sliding-window search but
with snippet length at most 5, acceptance threshold 2, and the anchor taken
from the last word of the matched window (words[best_index + snippet_len - 1]). -/
def find_question_anchor (words : List Word) (page_height : ℚ) (question : String) :
    Option (ℚ × ℚ) :=
  if words = [] then none
  else if tokens question = [] then none
  else if wfSnippet question = [] then none
  else
    match pickBest (wfScores words question) 0 none 0 with
    | (none, _) => none
    | (some best_index, best_score) =>
      if best_score < 2 then none
      else
        let anchor_word := words.getD (best_index + wfK question - 1) dWord
        some (anchor_word.x0, page_height - anchor_word.bottom)

/-- The per-answer emission loop shared by both variants:
for line in lines: y -= 12; if y < 40: break; drawString(x, y, line). -/
def emitLines (x : ℚ) : ℚ → List String → List DrawInstruction
  | _, [] => []
  | y, l :: ls =>
    if y - 12 < 40 then []
    else ⟨x, y - 12, l⟩ :: emitLines x (y - 12) ls

/-- app.py line building: split the answer on newlines and wrap each chunk
to 80 characters, an empty wrap contributing one empty line. -/
def appLines (answer : String) : List String :=
  (splitNl answer).foldl (fun acc chunk =>
    acc ++ (if pyWrap 80 chunk = [] then [""] else pyWrap 80 chunk)) []

/-- One item of the app.py per-page loop: skip on a missing prompt or answer,
skip when the prompt cannot be anchored, else emit 14 points below the anchor. -/
def appProcessItem (ws : List Word) (pageHeight : ℚ) (item : Item) : List DrawInstruction :=
  if item.prompt = "" ∨ item.answer = "" then []
  else
    match find_prompt_anchor ws pageHeight item.prompt with
    | none => []
    | some (bx, ay) => emitLines bx (ay - 14) (appLines item.answer)

/-- The draw instructions app.py accumulates on one page's canvas. -/
def appPageInstructions (ws : List Word) (pageHeight : ℚ) (items : List Item) :
    List DrawInstruction :=
  items.foldl (fun acc it => acc ++ appProcessItem ws pageHeight it) []

/-- One item of the worksheet_filler.py per-page loop, threading the fallback
cursor: the state is (fallback_y, draws so far).  An anchored answer starts 15
points below the anchor with wrap width 80; an unanchored one is placed at
x = 50 from the current fallback cursor with wrap width 90, and the cursor
drops by 60 for the next unanchored answer. -/
def wfProcessItem (ws : List Word) (pageHeight : ℚ) (st : ℚ × List DrawInstruction)
    (qa : QA) : ℚ × List DrawInstruction :=
  if qa.answer = "" then st
  else
    match find_question_anchor ws pageHeight qa.question with
    | some (bx, ay) => (st.1, st.2 ++ emitLines bx (ay - 15) (pyWrap 80 qa.answer))
    | none => (st.1 - 60, st.2 ++ emitLines 50 st.1 (pyWrap 90 qa.answer))

/-- The draw instructions worksheet_filler.py accumulates on one page's
canvas; the fallback cursor is initialised to 150 at the start of the page. -/
def wfPageInstructions (ws : List Word) (pageHeight : ℚ) (items : List QA) :
    List DrawInstruction :=
  (items.foldl (wfProcessItem ws pageHeight) (150, [])).2

/-- Number of items of a page that take the fallback branch: nonempty answer
whose question has no anchor on the page. -/
def unresolvedCount (ws : List Word) (pageHeight : ℚ) (items : List QA) : Nat :=
  items.countP fun qa =>
    decide (qa.answer ≠ "" ∧ find_question_anchor ws pageHeight qa.question = none)

/-- The app.py body for page i: pass the page through when it has no items
(index out of range or empty list), or when anything in the guarded
build/merge block raises (mergeFails i); otherwise merge the overlay. -/
def appPageOut (pages : List Page) (itemsByPage : List (List Item))
    (mergeFails : Nat → Bool) (i : Nat) : OutPage :=
  if itemsByPage.getD i [] = [] then .original i
  else if mergeFails i then .original i
  else
    .merged i (appPageInstructions (pages.getD i ⟨[], 0, 0⟩).words
      (pages.getD i ⟨[], 0, 0⟩).height (itemsByPage.getD i []))

/-- app.py overlay_answers_on_pdf: the writer accumulates exactly one output
page per input page index, in order. -/
def overlay_answers_on_pdf_app (pages : List Page) (itemsByPage : List (List Item))
    (mergeFails : Nat → Bool) : List OutPage :=
  (List.range pages.length).foldl
    (fun acc i => acc ++ [appPageOut pages itemsByPage mergeFails i]) []

/-- worksheet_filler.py overlay loop: the page is passed through when it has
no items, but merge_page is unguarded, so a raising merge aborts the whole
function before any output is written. -/
def wfGo (pages : List Page) (itemsByPage : List (List QA)) (mergeFails : Nat → Bool) :
    List Nat → List OutPage → Except String (List OutPage)
  | [], acc => .ok acc
  | i :: rest, acc =>
    if itemsByPage.getD i [] = [] then
      wfGo pages itemsByPage mergeFails rest (acc ++ [.original i])
    else if mergeFails i then .error "merge_page raised"
    else
      wfGo pages itemsByPage mergeFails rest
        (acc ++ [.merged i (wfPageInstructions (pages.getD i ⟨[], 0, 0⟩).words
          (pages.getD i ⟨[], 0, 0⟩).height (itemsByPage.getD i []))])

/-- worksheet_filler.py overlay_answers_on_pdf. -/
def overlay_answers_on_pdf_wf (pages : List Page) (itemsByPage : List (List QA))
    (mergeFails : Nat → Bool) : Except String (List OutPage) :=
  wfGo pages itemsByPage mergeFails (List.range pages.length) []

/-
Generic helper lemmas about maxList, firstIdx and pickBest: the selection
loop returns the maximum window score together with the index of its first
occurrence.
-/

theorem maxList_le_iff {l : List Nat} {c : Nat} : maxList l ≤ c ↔ ∀ a ∈ l, a ≤ c := by
  induction l with
  | nil => simp [maxList]
  | cons a t ih =>
    simp only [maxList, List.foldr_cons, max_le_iff, List.mem_cons]
    constructor
    · rintro ⟨ha, ht⟩ b (rfl | hb)
      · exact ha
      · exact (ih.mp ht) b hb
    · intro hf
      exact ⟨hf a (Or.inl rfl), ih.mpr fun b hb => hf b (Or.inr hb)⟩

theorem le_maxList_of_mem {l : List Nat} {a : Nat} (ha : a ∈ l) : a ≤ maxList l :=
  (maxList_le_iff.mp le_rfl) a ha

theorem maxList_mem {l : List Nat} (hl : l ≠ []) : maxList l ∈ l := by
  induction l with
  | nil => exact absurd rfl hl
  | cons a t ih =>
    have hc : maxList (a :: t) = max a (maxList t) := rfl
    rcases eq_or_ne t [] with rfl | ht
    · simp [maxList]
    · rcases max_choice a (maxList t) with h | h
      · rw [hc, h]; exact List.mem_cons_self a t
      · rw [hc, h]; exact List.mem_cons_of_mem a (ih ht)

theorem maxList_eq_zero {l : List Nat} (hl : ∀ a ∈ l, a = 0) : maxList l = 0 :=
  Nat.le_zero.mp (maxList_le_iff.mpr fun a ha => Nat.le_zero.mpr (hl a ha))

theorem getD_le_maxList (l : List Nat) (j : Nat) : l.getD j 0 ≤ maxList l := by
  induction l generalizing j with
  | nil => simp [maxList, List.getD_nil]
  | cons a t ih =>
    have hc : maxList (a :: t) = max a (maxList t) := rfl
    cases j with
    | zero => rw [List.getD_cons_zero, hc]; exact le_max_left _ _
    | succ j => rw [List.getD_cons_succ, hc]; exact le_trans (ih j) (le_max_right _ _)

theorem getD_firstIdx {v : Nat} {l : List Nat} (hv : v ∈ l) : l.getD (firstIdx v l) 0 = v := by
  induction l with
  | nil => cases hv
  | cons a t ih =>
    by_cases hav : a = v
    · simp [firstIdx, hav]
    · have hvt : v ∈ t := by
        rcases List.mem_cons.mp hv with rfl | h
        · exact absurd rfl hav
        · exact h
      simp only [firstIdx, if_neg hav, List.getD_cons_succ]
      exact ih hvt

theorem getD_ne_of_lt_firstIdx {v : Nat} {l : List Nat} (hv : v ∈ l) :
    ∀ j < firstIdx v l, l.getD j 0 ≠ v := by
  induction l with
  | nil => cases hv
  | cons a t ih =>
    by_cases hav : a = v
    · simp [firstIdx, hav]
    · have hvt : v ∈ t := by
        rcases List.mem_cons.mp hv with rfl | h
        · exact absurd rfl hav
        · exact h
      intro j hj
      simp only [firstIdx, if_neg hav] at hj
      cases j with
      | zero => simpa using hav
      | succ j =>
        simp only [List.getD_cons_succ]
        exact ih hvt j (Nat.lt_of_succ_lt_succ hj)

theorem firstIdx_lt_length {v : Nat} {l : List Nat} (hv : v ∈ l) : firstIdx v l < l.length := by
  induction l with
  | nil => cases hv
  | cons a t ih =>
    by_cases hav : a = v
    · simp [firstIdx, hav]
    · have hvt : v ∈ t := by
        rcases List.mem_cons.mp hv with rfl | h
        · exact absurd rfl hav
        · exact h
      simp only [firstIdx, if_neg hav, List.length_cons]
      exact Nat.succ_lt_succ (ih hvt)

theorem pickBest_of_le : ∀ (l : List Nat) (i : Nat) (bi : Option Nat) (bs : Nat),
    maxList l ≤ bs → pickBest l i bi bs = (bi, bs) := by
  intro l
  induction l with
  | nil => intro i bi bs _; rfl
  | cons s t ih =>
    intro i bi bs hle
    have hc : maxList (s :: t) = max s (maxList t) := rfl
    rw [hc, max_le_iff] at hle
    rw [pickBest, if_neg (Nat.not_lt.mpr hle.1)]
    exact ih (i + 1) bi bs hle.2

theorem pickBest_of_lt : ∀ (l : List Nat) (i : Nat) (bi : Option Nat) (bs : Nat),
    bs < maxList l →
    pickBest l i bi bs = (some (i + firstIdx (maxList l) l), maxList l) := by
  intro l
  induction l with
  | nil => intro i bi bs h; simp [maxList] at h
  | cons s t ih =>
    intro i bi bs hlt
    have hc : maxList (s :: t) = max s (maxList t) := rfl
    by_cases h1 : bs < s
    · rw [pickBest, if_pos h1]
      by_cases h2 : maxList t ≤ s
      · have hm : maxList (s :: t) = s := by rw [hc, max_eq_left h2]
        rw [pickBest_of_le t (i + 1) (some i) s h2, hm]
        simp [firstIdx]
      · have hst : s < maxList t := Nat.not_le.mp h2
        have hm : maxList (s :: t) = maxList t := by rw [hc, max_eq_right (le_of_lt hst)]
        rw [ih (i + 1) (some i) s hst, hm]
        have hne : s ≠ maxList t := Nat.ne_of_lt hst
        simp only [firstIdx, if_neg hne]
        have harith : i + 1 + firstIdx (maxList t) t = i + (firstIdx (maxList t) t + 1) := by
          omega
        rw [harith]
    · have hs_le : s ≤ bs := Nat.not_lt.mp h1
      have hbm : bs < maxList t := by
        rw [hc] at hlt
        rcases lt_max_iff.mp hlt with h | h
        · exact absurd h h1
        · exact h
      have hst : s < maxList t := lt_of_le_of_lt hs_le hbm
      rw [pickBest, if_neg h1, ih (i + 1) bi bs hbm]
      have hm : maxList (s :: t) = maxList t := by rw [hc, max_eq_right (le_of_lt hst)]
      rw [hm]
      have hne : s ≠ maxList t := Nat.ne_of_lt hst
      simp only [firstIdx, if_neg hne]
      have harith : i + 1 + firstIdx (maxList t) t = i + (firstIdx (maxList t) t + 1) := by
        omega
      rw [harith]

/-
Facts about the window-score list and closed forms of the two anchor
resolvers: each returns the anchor of the first window attaining the maximal
score exactly when that score reaches the variant's threshold.
-/

theorem scoreWindow_nil_right (sn : List String) : scoreWindow sn [] = 0 := by
  simp [scoreWindow]

theorem maxList_windowScores_left (sn : List String) (k : Nat) :
    maxList (windowScores [] sn k) = 0 := by
  apply maxList_eq_zero
  intro a ha
  simp only [windowScores, List.mem_map] at ha
  obtain ⟨i, _, rfl⟩ := ha
  simp [scoreWindow_nil_right]

theorem maxList_windowScores_snippet (pw : List String) (k : Nat) :
    maxList (windowScores pw [] k) = 0 := by
  apply maxList_eq_zero
  intro a ha
  simp only [windowScores, List.mem_map] at ha
  obtain ⟨i, _, rfl⟩ := ha
  rfl

theorem windowScores_length (pw sn : List String) (k : Nat) :
    (windowScores pw sn k).length = pw.length + 1 - k := by
  simp [windowScores]

theorem maxList_appScores_words (p : String) : maxList (appScores [] p) = 0 := by
  simp only [appScores, List.map_nil]
  exact maxList_windowScores_left _ _

theorem maxList_appScores_tokens (ws : List Word) {p : String} (h : tokens p = []) :
    maxList (appScores ws p) = 0 := by
  have hsn : appSnippet p = [] := by simp [appSnippet, h]
  rw [appScores, hsn]
  exact maxList_windowScores_snippet _ _

theorem maxList_wfScores_words (q : String) : maxList (wfScores [] q) = 0 := by
  simp only [wfScores, List.map_nil]
  exact maxList_windowScores_left _ _

theorem maxList_wfScores_tokens (ws : List Word) {q : String} (h : tokens q = []) :
    maxList (wfScores ws q) = 0 := by
  have hsn : wfSnippet q = [] := by simp [wfSnippet, h]
  rw [wfScores, hsn]
  exact maxList_windowScores_snippet _ _

theorem appK_pos {p : String} (h : tokens p ≠ []) : 1 ≤ appK p := by
  rw [appK]
  have : 1 ≤ (tokens p).length := List.length_pos.mpr h
  omega

theorem wfK_pos {q : String} (h : tokens q ≠ []) : 1 ≤ wfK q := by
  rw [wfK]
  have : 1 ≤ (tokens q).length := List.length_pos.mpr h
  omega

theorem appSnippet_ne_nil {p : String} (h : tokens p ≠ []) : appSnippet p ≠ [] := by
  intro hcon
  rw [appSnippet, List.map_eq_nil_iff, List.take_eq_nil_iff] at hcon
  have := appK_pos h
  rcases hcon with hk | ht
  · omega
  · exact h ht

theorem wfSnippet_ne_nil {q : String} (h : tokens q ≠ []) : wfSnippet q ≠ [] := by
  intro hcon
  rw [wfSnippet, List.map_eq_nil_iff, List.take_eq_nil_iff] at hcon
  have := wfK_pos h
  rcases hcon with hk | ht
  · omega
  · exact h ht

theorem find_prompt_anchor_spec (ws : List Word) (h : ℚ) (p : String) :
    find_prompt_anchor ws h p =
      if max 3 (appK p - 1) ≤ maxList (appScores ws p) then
        some (minX0 (appWindowAt ws p
                (firstIdx (maxList (appScores ws p)) (appScores ws p))),
              h - maxBottom (appWindowAt ws p
                (firstIdx (maxList (appScores ws p)) (appScores ws p))))
      else none := by
  have h3 : 3 ≤ max 3 (appK p - 1) := le_max_left _ _
  by_cases hws : ws = []
  · have h0 : maxList (appScores ws p) = 0 := by
      subst hws
      exact maxList_appScores_words p
    rw [find_prompt_anchor, if_pos hws, h0, if_neg (by omega)]
  · by_cases htok : tokens p = []
    · have h0 : maxList (appScores ws p) = 0 := maxList_appScores_tokens ws htok
      rw [find_prompt_anchor, if_neg hws, if_pos htok, h0, if_neg (by omega)]
    · have hsn : appSnippet p ≠ [] := appSnippet_ne_nil htok
      rw [find_prompt_anchor, if_neg hws, if_neg htok, if_neg hsn]
      rcases Nat.eq_zero_or_pos (maxList (appScores ws p)) with h0 | hpos
      · rw [pickBest_of_le _ 0 none 0 (le_of_eq h0), h0, if_neg (by omega)]
      · rw [pickBest_of_lt _ 0 none 0 hpos]
        simp only [Nat.zero_add]
        by_cases hthr : maxList (appScores ws p) < max 3 (appK p - 1)
        · rw [if_pos hthr, if_neg (by omega)]
        · rw [if_neg hthr, if_pos (by omega)]

theorem find_question_anchor_spec (ws : List Word) (h : ℚ) (q : String) :
    find_question_anchor ws h q =
      if 2 ≤ maxList (wfScores ws q) then
        some ((ws.getD (firstIdx (maxList (wfScores ws q)) (wfScores ws q)
                + wfK q - 1) dWord).x0,
              h - (ws.getD (firstIdx (maxList (wfScores ws q)) (wfScores ws q)
                + wfK q - 1) dWord).bottom)
      else none := by
  by_cases hws : ws = []
  · have h0 : maxList (wfScores ws q) = 0 := by
      subst hws
      exact maxList_wfScores_words q
    rw [find_question_anchor, if_pos hws, h0, if_neg (by omega)]
  · by_cases htok : tokens q = []
    · have h0 : maxList (wfScores ws q) = 0 := maxList_wfScores_tokens ws htok
      rw [find_question_anchor, if_neg hws, if_pos htok, h0, if_neg (by omega)]
    · have hsn : wfSnippet q ≠ [] := wfSnippet_ne_nil htok
      rw [find_question_anchor, if_neg hws, if_neg htok, if_neg hsn]
      rcases Nat.eq_zero_or_pos (maxList (wfScores ws q)) with h0 | hpos
      · rw [pickBest_of_le _ 0 none 0 (le_of_eq h0), h0, if_neg (by omega)]
      · rw [pickBest_of_lt _ 0 none 0 hpos]
        simp only [Nat.zero_add]
        by_cases hthr : maxList (wfScores ws q) < 2
        · rw [if_pos hthr, if_neg (by omega)]
        · rw [if_neg hthr, if_pos (by omega)]

/-
Min/max folds over word lists: the result is attained by a member and
bounds every member.
-/

theorem foldl_min_le_init (f : Word → ℚ) :
    ∀ (l : List Word) (a : ℚ), l.foldl (fun m u => min m (f u)) a ≤ a := by
  intro l
  induction l with
  | nil => intro a; simp
  | cons w t ih =>
    intro a
    simp only [List.foldl_cons]
    exact le_trans (ih (min a (f w))) (min_le_left _ _)

theorem foldl_min_le_mem (f : Word → ℚ) :
    ∀ (l : List Word) (a : ℚ) (u : Word), u ∈ l →
      l.foldl (fun m v => min m (f v)) a ≤ f u := by
  intro l
  induction l with
  | nil => intro a u hu; cases hu
  | cons w t ih =>
    intro a u hu
    simp only [List.foldl_cons]
    rcases List.mem_cons.mp hu with rfl | hu
    · exact le_trans (foldl_min_le_init f t (min a (f u))) (min_le_right _ _)
    · exact ih (min a (f w)) u hu

theorem foldl_min_mem (f : Word → ℚ) :
    ∀ (l : List Word) (a : ℚ),
      l.foldl (fun m u => min m (f u)) a = a ∨
      l.foldl (fun m u => min m (f u)) a ∈ l.map f := by
  intro l
  induction l with
  | nil => intro a; exact Or.inl rfl
  | cons w t ih =>
    intro a
    simp only [List.foldl_cons]
    rcases ih (min a (f w)) with h | h
    · rcases min_choice a (f w) with hm | hm
      · exact Or.inl (h.trans hm)
      · exact Or.inr (by rw [h, hm]; exact List.mem_cons_self _ _)
    · exact Or.inr (List.mem_cons_of_mem _ h)

theorem foldl_max_init_le (f : Word → ℚ) :
    ∀ (l : List Word) (a : ℚ), a ≤ l.foldl (fun m u => max m (f u)) a := by
  intro l
  induction l with
  | nil => intro a; simp
  | cons w t ih =>
    intro a
    simp only [List.foldl_cons]
    exact le_trans (le_max_left _ _) (ih (max a (f w)))

theorem foldl_max_mem_le (f : Word → ℚ) :
    ∀ (l : List Word) (a : ℚ) (u : Word), u ∈ l →
      f u ≤ l.foldl (fun m v => max m (f v)) a := by
  intro l
  induction l with
  | nil => intro a u hu; cases hu
  | cons w t ih =>
    intro a u hu
    simp only [List.foldl_cons]
    rcases List.mem_cons.mp hu with rfl | hu
    · exact le_trans (le_max_right _ _) (foldl_max_init_le f t (max a (f u)))
    · exact ih (max a (f w)) u hu

theorem foldl_max_mem (f : Word → ℚ) :
    ∀ (l : List Word) (a : ℚ),
      l.foldl (fun m u => max m (f u)) a = a ∨
      l.foldl (fun m u => max m (f u)) a ∈ l.map f := by
  intro l
  induction l with
  | nil => intro a; exact Or.inl rfl
  | cons w t ih =>
    intro a
    simp only [List.foldl_cons]
    rcases ih (max a (f w)) with h | h
    · rcases max_choice a (f w) with hm | hm
      · exact Or.inl (h.trans hm)
      · exact Or.inr (by rw [h, hm]; exact List.mem_cons_self _ _)
    · exact Or.inr (List.mem_cons_of_mem _ h)

theorem minX0_mem {l : List Word} (hl : l ≠ []) : minX0 l ∈ l.map Word.x0 := by
  match l with
  | [] => exact absurd rfl hl
  | w :: t =>
    rcases foldl_min_mem Word.x0 t w.x0 with h | h
    · rw [minX0, h]
      exact List.mem_cons_self _ _
    · rw [minX0]
      exact List.mem_cons_of_mem _ h

theorem minX0_le {l : List Word} {u : Word} (hu : u ∈ l) : minX0 l ≤ u.x0 := by
  match l with
  | [] => cases hu
  | w :: t =>
    rcases List.mem_cons.mp hu with rfl | hu
    · exact foldl_min_le_init Word.x0 t u.x0
    · exact foldl_min_le_mem Word.x0 t w.x0 u hu

theorem maxBottom_mem {l : List Word} (hl : l ≠ []) : maxBottom l ∈ l.map Word.bottom := by
  match l with
  | [] => exact absurd rfl hl
  | w :: t =>
    rcases foldl_max_mem Word.bottom t w.bottom with h | h
    · rw [maxBottom, h]
      exact List.mem_cons_self _ _
    · rw [maxBottom]
      exact List.mem_cons_of_mem _ h

theorem le_maxBottom {l : List Word} {u : Word} (hu : u ∈ l) : u.bottom ≤ maxBottom l := by
  match l with
  | [] => cases hu
  | w :: t =>
    rcases List.mem_cons.mp hu with rfl | hu
    · exact foldl_max_init_le Word.bottom t u.bottom
    · exact foldl_max_mem_le Word.bottom t w.bottom u hu

/-
The emission loop never draws below the bottom margin, and drops the whole
tail of an answer once the decremented cursor is below it.
-/

theorem emitLines_y_ge (x : ℚ) :
    ∀ (ls : List String) (y : ℚ) (d : DrawInstruction),
      d ∈ emitLines x y ls → 40 ≤ d.y := by
  intro ls
  induction ls with
  | nil => intro y d hd; cases hd
  | cons l t ih =>
    intro y d hd
    rw [emitLines] at hd
    by_cases hy : y - 12 < 40
    · rw [if_pos hy] at hd
      cases hd
    · rw [if_neg hy] at hd
      rcases List.mem_cons.mp hd with rfl | hd
      · exact le_of_not_lt hy
      · exact ih (y - 12) d hd

theorem emitLines_below (x y : ℚ) (ls : List String) (hy : y - 12 < 40) :
    emitLines x y ls = [] := by
  match ls with
  | [] => rfl
  | l :: t => rw [emitLines, if_pos hy]

/-
Per-item and per-page layout lemmas.
-/

theorem appProcessItem_y_ge (ws : List Word) (h : ℚ) (item : Item) (d : DrawInstruction)
    (hd : d ∈ appProcessItem ws h item) : 40 ≤ d.y := by
  rw [appProcessItem] at hd
  by_cases hskip : item.prompt = "" ∨ item.answer = ""
  · rw [if_pos hskip] at hd
    cases hd
  · rw [if_neg hskip] at hd
    rcases hanch : find_prompt_anchor ws h item.prompt with _ | ⟨bx, ay⟩
    · rw [hanch] at hd
      cases hd
    · rw [hanch] at hd
      exact emitLines_y_ge _ _ _ _ hd

theorem appFold_y_ge (ws : List Word) (h : ℚ) :
    ∀ (items : List Item) (acc : List DrawInstruction),
      (∀ d ∈ acc, 40 ≤ d.y) →
      ∀ d ∈ items.foldl (fun a it => a ++ appProcessItem ws h it) acc, 40 ≤ d.y := by
  intro items
  induction items with
  | nil => intro acc hacc d hd; exact hacc d hd
  | cons it t ih =>
    intro acc hacc d hd
    simp only [List.foldl_cons] at hd
    refine ih (acc ++ appProcessItem ws h it) ?_ d hd
    intro e he
    rcases List.mem_append.mp he with he | he
    · exact hacc e he
    · exact appProcessItem_y_ge ws h it e he

theorem wfProcessItem_y_ge (ws : List Word) (h : ℚ) (st : ℚ × List DrawInstruction)
    (qa : QA) (d : DrawInstruction) (hd : d ∈ (wfProcessItem ws h st qa).2) :
    d ∈ st.2 ∨ 40 ≤ d.y := by
  rw [wfProcessItem] at hd
  by_cases hskip : qa.answer = ""
  · rw [if_pos hskip] at hd
    exact Or.inl hd
  · rw [if_neg hskip] at hd
    rcases hanch : find_question_anchor ws h qa.question with _ | ⟨bx, ay⟩ <;>
      rw [hanch] at hd <;>
      simp only at hd <;>
      rcases List.mem_append.mp hd with hd | hd
    · exact Or.inl hd
    · exact Or.inr (emitLines_y_ge _ _ _ _ hd)
    · exact Or.inl hd
    · exact Or.inr (emitLines_y_ge _ _ _ _ hd)

theorem wfFold_y_ge (ws : List Word) (h : ℚ) :
    ∀ (items : List QA) (st : ℚ × List DrawInstruction),
      (∀ d ∈ st.2, 40 ≤ d.y) →
      ∀ d ∈ (items.foldl (wfProcessItem ws h) st).2, 40 ≤ d.y := by
  intro items
  induction items with
  | nil => intro st hst d hd; exact hst d hd
  | cons qa t ih =>
    intro st hst d hd
    simp only [List.foldl_cons] at hd
    refine ih (wfProcessItem ws h st qa) ?_ d hd
    intro e he
    rcases wfProcessItem_y_ge ws h st qa e he with he | he
    · exact hst e he
    · exact he

theorem wfFold_fst (ws : List Word) (h : ℚ) :
    ∀ (items : List QA) (fy : ℚ) (ds : List DrawInstruction),
      (items.foldl (wfProcessItem ws h) (fy, ds)).1 =
        fy - 60 * (unresolvedCount ws h items : ℚ) := by
  intro items
  induction items with
  | nil =>
    intro fy ds
    simp [unresolvedCount]
  | cons qa t ih =>
    intro fy ds
    simp only [List.foldl_cons]
    by_cases hskip : qa.answer = ""
    · have hstep : wfProcessItem ws h (fy, ds) qa = (fy, ds) := by
        rw [wfProcessItem, if_pos hskip]
      rw [hstep, ih]
      have hcnt : unresolvedCount ws h (qa :: t) = unresolvedCount ws h t := by
        simp [unresolvedCount, List.countP_cons, hskip]
      rw [hcnt]
    · rcases hanch : find_question_anchor ws h qa.question with _ | ⟨bx, ay⟩
      · have hstep : wfProcessItem ws h (fy, ds) qa =
            (fy - 60, ds ++ emitLines 50 fy (pyWrap 90 qa.answer)) := by
          rw [wfProcessItem, if_neg hskip, hanch]
        rw [hstep, ih]
        have hcnt : unresolvedCount ws h (qa :: t) = unresolvedCount ws h t + 1 := by
          simp [unresolvedCount, List.countP_cons, hskip, hanch]
        rw [hcnt]
        push_cast
        ring
      · have hstep : wfProcessItem ws h (fy, ds) qa =
            (fy, ds ++ emitLines bx (ay - 15) (pyWrap 80 qa.answer)) := by
          rw [wfProcessItem, if_neg hskip, hanch]
        rw [hstep, ih]
        have hcnt : unresolvedCount ws h (qa :: t) = unresolvedCount ws h t := by
          simp [unresolvedCount, List.countP_cons, hanch]
        rw [hcnt]

/-
Output-assembly lemmas: the app variant appends exactly one page per input
index, and the worksheet_filler variant does so when no merge fails.
-/

theorem foldl_append_singleton (f : Nat → OutPage) :
    ∀ (l : List Nat) (acc : List OutPage),
      l.foldl (fun a i => a ++ [f i]) acc = acc ++ l.map f := by
  intro l
  induction l with
  | nil => intro acc; simp
  | cons i t ih =>
    intro acc
    simp only [List.foldl_cons, List.map_cons]
    rw [ih, List.append_assoc, List.singleton_append]

theorem overlay_app_eq_map (pages : List Page) (itemsByPage : List (List Item))
    (mergeFails : Nat → Bool) :
    overlay_answers_on_pdf_app pages itemsByPage mergeFails =
      (List.range pages.length).map (appPageOut pages itemsByPage mergeFails) := by
  rw [overlay_answers_on_pdf_app, foldl_append_singleton, List.nil_append]

theorem appPageOut_idx (pages : List Page) (itemsByPage : List (List Item))
    (mergeFails : Nat → Bool) (i : Nat) :
    (appPageOut pages itemsByPage mergeFails i).idx = i := by
  rw [appPageOut]
  by_cases h1 : itemsByPage.getD i [] = []
  · rw [if_pos h1]; rfl
  · rw [if_neg h1]
    by_cases h2 : mergeFails i = true
    · rw [if_pos h2]; rfl
    · rw [if_neg h2]; rfl

theorem map_idx_of_pointwise {g : Nat → OutPage} (hg : ∀ i, (g i).idx = i) :
    ∀ l : List Nat, (l.map g).map OutPage.idx = l := by
  intro l
  induction l with
  | nil => rfl
  | cons i t ih => simp only [List.map_cons, hg, ih]

theorem overlay_app_map_idx (pages : List Page) (itemsByPage : List (List Item))
    (mergeFails : Nat → Bool) :
    (overlay_answers_on_pdf_app pages itemsByPage mergeFails).map OutPage.idx =
      List.range pages.length := by
  rw [overlay_app_eq_map]
  exact map_idx_of_pointwise (appPageOut_idx pages itemsByPage mergeFails) _

theorem overlay_app_length (pages : List Page) (itemsByPage : List (List Item))
    (mergeFails : Nat → Bool) :
    (overlay_answers_on_pdf_app pages itemsByPage mergeFails).length = pages.length := by
  have hmap := overlay_app_map_idx pages itemsByPage mergeFails
  have := congrArg List.length hmap
  simpa using this

theorem overlay_app_getD (pages : List Page) (itemsByPage : List (List Item))
    (mergeFails : Nat → Bool) {i : Nat} (hi : i < pages.length) :
    (overlay_answers_on_pdf_app pages itemsByPage mergeFails).getD i (.original 0) =
      appPageOut pages itemsByPage mergeFails i := by
  rw [overlay_app_eq_map, List.getD_eq_getElem?_getD, List.getElem?_map,
    List.getElem?_range hi]
  rfl

/-- The page worksheet_filler.py would append for index i when its merge does
not raise. -/
def wfPageOutNF (pages : List Page) (itemsByPage : List (List QA)) (i : Nat) : OutPage :=
  if itemsByPage.getD i [] = [] then .original i
  else
    .merged i (wfPageInstructions (pages.getD i ⟨[], 0, 0⟩).words
      (pages.getD i ⟨[], 0, 0⟩).height (itemsByPage.getD i []))

theorem wfGo_ok (pages : List Page) (itemsByPage : List (List QA)) :
    ∀ (l : List Nat) (acc : List OutPage),
      wfGo pages itemsByPage (fun _ => false) l acc =
        .ok (acc ++ l.map (wfPageOutNF pages itemsByPage)) := by
  intro l
  induction l with
  | nil => intro acc; simp [wfGo]
  | cons i t ih =>
    intro acc
    rw [wfGo]
    by_cases h1 : itemsByPage.getD i [] = []
    · rw [if_pos h1, ih, List.map_cons]
      have : wfPageOutNF pages itemsByPage i = .original i := by
        rw [wfPageOutNF, if_pos h1]
      rw [this, List.append_assoc, List.singleton_append]
    · rw [if_neg h1]
      simp only [Bool.false_eq_true, if_false]
      rw [ih, List.map_cons]
      have : wfPageOutNF pages itemsByPage i =
          .merged i (wfPageInstructions (pages.getD i ⟨[], 0, 0⟩).words
            (pages.getD i ⟨[], 0, 0⟩).height (itemsByPage.getD i [])) := by
        rw [wfPageOutNF, if_neg h1]
      rw [this, List.append_assoc, List.singleton_append]

theorem overlay_wf_ok (pages : List Page) (itemsByPage : List (List QA)) :
    overlay_answers_on_pdf_wf pages itemsByPage (fun _ => false) =
      .ok ((List.range pages.length).map (wfPageOutNF pages itemsByPage)) := by
  rw [overlay_answers_on_pdf_wf, wfGo_ok, List.nil_append]

theorem wfPageOutNF_idx (pages : List Page) (itemsByPage : List (List QA)) (i : Nat) :
    (wfPageOutNF pages itemsByPage i).idx = i := by
  rw [wfPageOutNF]
  by_cases h1 : itemsByPage.getD i [] = []
  · rw [if_pos h1]; rfl
  · rw [if_neg h1]; rfl

/-
Claim theorems.
-/

/-- C1 counterexample: in worksheet_filler.py the per-page merge is not
guarded, so a raising merge_page aborts overlay_answers_on_pdf before any
output document is written — the claim's "regardless of per-page overlay
failures" fails on this variant. -/
theorem c1_counterexample :
    overlay_answers_on_pdf_wf [⟨[], 612, 792⟩] [[⟨"q", "a"⟩]] (fun _ => true)
      = Except.error "merge_page raised" := by
  with_unfolding_all rfl

/-- C1 (amended): app.py's overlay_answers_on_pdf emits exactly one output
page per input page, in input order, for every merge-failure pattern; the
worksheet_filler.py variant does so provided no per-page merge raises. -/
theorem c1_pages_preserved :
    (∀ (pages : List Page) (itemsByPage : List (List Item)) (mergeFails : Nat → Bool),
      (overlay_answers_on_pdf_app pages itemsByPage mergeFails).map OutPage.idx =
        List.range pages.length)
    ∧ (∀ (pages : List Page) (itemsByPage : List (List QA)),
      ∃ out, overlay_answers_on_pdf_wf pages itemsByPage (fun _ => false) = .ok out
        ∧ out.map OutPage.idx = List.range pages.length) := by
  constructor
  · exact overlay_app_map_idx
  · intro pages itemsByPage
    exact ⟨_, overlay_wf_ok pages itemsByPage,
      map_idx_of_pointwise (wfPageOutNF_idx pages itemsByPage) _⟩

/-- C2 counterexample: a merge failure on page 0 of the worksheet_filler.py
variant propagates out of overlay_answers_on_pdf and aborts the processing of
the remaining page 1 as well. -/
theorem c2_counterexample :
    overlay_answers_on_pdf_wf [⟨[], 612, 792⟩, ⟨[], 612, 792⟩]
      [[⟨"q1", "a1"⟩], [⟨"q2", "a2"⟩]] (fun i => i == 0)
      = Except.error "merge_page raised" := by
  with_unfolding_all rfl

/-- C2 (amended): in app.py a merge failure on page i is caught: page i is
appended as the unchanged original, the output still has one page per input
page, and pages other than i are unaffected by what happens on page i. -/
theorem c2_merge_failure_recovered (pages : List Page) (itemsByPage : List (List Item))
    (mergeFails mergeFails2 : Nat → Bool) (i : Nat) (hi : i < pages.length)
    (hmf : mergeFails i = true) :
    (overlay_answers_on_pdf_app pages itemsByPage mergeFails).getD i (.original 0)
      = OutPage.original i
    ∧ (overlay_answers_on_pdf_app pages itemsByPage mergeFails).length = pages.length
    ∧ ((∀ j, j ≠ i → mergeFails2 j = mergeFails j) → ∀ j, j ≠ i →
        (overlay_answers_on_pdf_app pages itemsByPage mergeFails2).getD j (.original 0)
          = (overlay_answers_on_pdf_app pages itemsByPage mergeFails).getD j (.original 0)) := by
  refine ⟨?_, overlay_app_length _ _ _, ?_⟩
  · rw [overlay_app_getD _ _ _ hi, appPageOut]
    by_cases h1 : itemsByPage.getD i [] = []
    · rw [if_pos h1]
    · rw [if_neg h1, if_pos hmf]
  · intro hagree j hj
    by_cases hjlt : j < pages.length
    · rw [overlay_app_getD pages itemsByPage mergeFails2 hjlt,
        overlay_app_getD pages itemsByPage mergeFails hjlt,
        appPageOut, appPageOut, hagree j hj]
    · have hl1 : pages.length ≤ j := Nat.not_lt.mp hjlt
      rw [List.getD_eq_getElem?_getD, List.getD_eq_getElem?_getD,
        List.getElem?_eq_none (by rw [overlay_app_length]; exact hl1),
        List.getElem?_eq_none (by rw [overlay_app_length]; exact hl1)]

theorem c2_merge_failure_recovered_witness :
    (overlay_answers_on_pdf_app [⟨[], 612, 792⟩] [[⟨"q", "a"⟩]] (fun _ => true)).getD 0
      (.original 0) = OutPage.original 0 :=
  (c2_merge_failure_recovered [⟨[], 612, 792⟩] [[⟨"q", "a"⟩]] (fun _ => true)
    (fun _ => true) 0 (of_decide_eq_true (by with_unfolding_all rfl)) rfl).1

/-- Concrete page for the C3 counterexample: only the first two of four
prompt tokens occur on the page. -/
def c3Words : List Word := [⟨"alpha", 10, 20⟩, ⟨"beta", 30, 20⟩, ⟨"x", 50, 20⟩, ⟨"y", 70, 20⟩]

/-- C3 counterexample: worksheet_filler.py's find_question_anchor accepts a
best score of 2 for a 4-token snippet even though max(3, k-1) = 3, so the
claimed threshold does not hold for that resolver. -/
theorem c3_counterexample :
    find_question_anchor c3Words 792 "alpha beta gamma delta" = some (70, 772)
    ∧ maxList (wfScores c3Words "alpha beta gamma delta") = 2
    ∧ max 3 (wfK "alpha beta gamma delta" - 1) = 3 := by
  refine ⟨?_, ?_, ?_⟩ <;> with_unfolding_all rfl

/-- C3 (amended): app.py's find_prompt_anchor returns an anchor exactly when
the maximal window score reaches max(3, k-1); worksheet_filler.py's
find_question_anchor uses the lower threshold 2 instead. -/
theorem c3_threshold (ws : List Word) (h : ℚ) (p : String) :
    ((find_prompt_anchor ws h p).isSome ↔
      max 3 (appK p - 1) ≤ maxList (appScores ws p))
    ∧ ((find_question_anchor ws h p).isSome ↔ 2 ≤ maxList (wfScores ws p)) := by
  constructor
  · rw [find_prompt_anchor_spec]
    by_cases hc : max 3 (appK p - 1) ≤ maxList (appScores ws p)
    · simp [hc]
    · simp [hc]
  · rw [find_question_anchor_spec]
    by_cases hc : 2 ≤ maxList (wfScores ws p)
    · simp [hc]
    · simp [hc]

/-- Concrete page for the C4 counterexample: three words whose x0 increase
left to right and whose maximal bottom is on the middle word. -/
def c4Words : List Word := [⟨"alpha", 50, 60⟩, ⟨"beta", 100, 70⟩, ⟨"gamma", 150, 65⟩]

/-- C4 counterexample: worksheet_filler.py anchors at the matched window's
last word, so the returned x is 150 (the last word's x0) and the returned y
uses the last word's bottom — not the window minimum x0 = 50 and maximum
bottom = 70 the claim requires. -/
theorem c4_counterexample :
    find_question_anchor c4Words 792 "alpha beta gamma" = some (150, 727)
    ∧ minX0 c4Words = 50
    ∧ maxBottom c4Words = 70
    ∧ ((150 : ℚ), (727 : ℚ)) ≠ ((50 : ℚ), 792 - (70 : ℚ)) := by
  refine ⟨?_, ?_, ?_, ?_⟩
  · with_unfolding_all rfl
  · with_unfolding_all rfl
  · with_unfolding_all rfl
  · exact of_decide_eq_false (by with_unfolding_all rfl)

/-- C4 (amended): whenever app.py's find_prompt_anchor accepts a window, the
anchor's x is the minimum x0 over that window and page_height - y is the
maximum bottom over that window; worksheet_filler.py's find_question_anchor
instead takes x0 and bottom from the single word closing the window. -/
theorem c4_anchor_geometry (ws : List Word) (h : ℚ) (p : String) (x y : ℚ) :
    (find_prompt_anchor ws h p = some (x, y) →
      ∃ i, appWindowAt ws p i ≠ []
        ∧ x ∈ (appWindowAt ws p i).map Word.x0
        ∧ (∀ u ∈ appWindowAt ws p i, x ≤ u.x0)
        ∧ h - y ∈ (appWindowAt ws p i).map Word.bottom
        ∧ (∀ u ∈ appWindowAt ws p i, u.bottom ≤ h - y))
    ∧ (find_question_anchor ws h p = some (x, y) →
      ∃ i, x = (ws.getD (i + wfK p - 1) dWord).x0
        ∧ y = h - (ws.getD (i + wfK p - 1) dWord).bottom) := by
  constructor
  · intro ha
    rw [find_prompt_anchor_spec] at ha
    by_cases hc : max 3 (appK p - 1) ≤ maxList (appScores ws p)
    · rw [if_pos hc] at ha
      have hpair := Option.some.inj ha
      have hx : minX0 (appWindowAt ws p
          (firstIdx (maxList (appScores ws p)) (appScores ws p))) = x :=
        congrArg Prod.fst hpair
      have hy : h - maxBottom (appWindowAt ws p
          (firstIdx (maxList (appScores ws p)) (appScores ws p))) = y :=
        congrArg Prod.snd hpair
      have hM3 : 3 ≤ maxList (appScores ws p) := le_trans (le_max_left _ _) hc
      have hSne : appScores ws p ≠ [] := by
        intro hS
        rw [hS] at hM3
        simp [maxList] at hM3
      have hMmem : maxList (appScores ws p) ∈ appScores ws p := maxList_mem hSne
      have htok : tokens p ≠ [] := by
        intro ht
        rw [maxList_appScores_tokens ws ht] at hM3
        omega
      have hk : 1 ≤ appK p := appK_pos htok
      have hlen : (appScores ws p).length = ws.length + 1 - appK p := by
        rw [appScores, windowScores_length, List.length_map]
      have hilt : firstIdx (maxList (appScores ws p)) (appScores ws p) <
          (appScores ws p).length := firstIdx_lt_length hMmem
      rw [hlen] at hilt
      have hWlen : (appWindowAt ws p
          (firstIdx (maxList (appScores ws p)) (appScores ws p))).length =
          min (appK p) (ws.length -
            firstIdx (maxList (appScores ws p)) (appScores ws p)) := by
        rw [appWindowAt, List.length_take, List.length_drop]
      have hWne : appWindowAt ws p
          (firstIdx (maxList (appScores ws p)) (appScores ws p)) ≠ [] := by
        apply List.ne_nil_of_length_pos
        rw [hWlen]
        exact lt_min_iff.mpr ⟨by omega, by omega⟩
      refine ⟨firstIdx (maxList (appScores ws p)) (appScores ws p),
        hWne, ?_, ?_, ?_, ?_⟩
      · rw [← hx]
        exact minX0_mem hWne
      · intro u hu
        rw [← hx]
        exact minX0_le hu
      · rw [← hy, sub_sub_cancel]
        exact maxBottom_mem hWne
      · intro u hu
        rw [← hy, sub_sub_cancel]
        exact le_maxBottom hu
    · rw [if_neg hc] at ha
      cases ha
  · intro ha
    rw [find_question_anchor_spec] at ha
    by_cases hc : 2 ≤ maxList (wfScores ws p)
    · rw [if_pos hc] at ha
      have hpair := Option.some.inj ha
      exact ⟨firstIdx (maxList (wfScores ws p)) (wfScores ws p),
        (congrArg Prod.fst hpair).symm, (congrArg Prod.snd hpair).symm⟩
    · rw [if_neg hc] at ha
      cases ha

/-- Concrete page for the C4 witness: the prompt occurs as a full window. -/
def c4OkWords : List Word := [⟨"alpha", 50, 60⟩, ⟨"beta", 80, 60⟩, ⟨"gamma", 110, 65⟩]

theorem c4_anchor_geometry_witness :
    ∃ i, appWindowAt c4OkWords "alpha beta gamma" i ≠ []
      ∧ (50 : ℚ) ∈ (appWindowAt c4OkWords "alpha beta gamma" i).map Word.x0
      ∧ (∀ u ∈ appWindowAt c4OkWords "alpha beta gamma" i, (50 : ℚ) ≤ u.x0)
      ∧ (792 : ℚ) - 727 ∈ (appWindowAt c4OkWords "alpha beta gamma" i).map Word.bottom
      ∧ (∀ u ∈ appWindowAt c4OkWords "alpha beta gamma" i, u.bottom ≤ (792 : ℚ) - 727) :=
  (c4_anchor_geometry c4OkWords 792 "alpha beta gamma" 50 727).1
    (of_decide_eq_true (by with_unfolding_all rfl))

/-- C5 counterexample: app.py simply skips an answer whose prompt cannot be
anchored — no fallback draw at x = 50 is produced at all. -/
theorem c5_counterexample :
    find_prompt_anchor [] 792 "hello there friend" = none
    ∧ appPageInstructions [] 792 [⟨"hello there friend", "my answer"⟩] = [] := by
  refine ⟨?_, ?_⟩ <;> with_unfolding_all rfl

/-- C5 (amended): only worksheet_filler.py has the fallback column: an
unanchored answer there is emitted at x = 50 from a per-page cursor that
starts at 150 and drops by 60 for each unresolved item already seen on the
page; in app.py an unanchored answer is skipped entirely. -/
theorem c5_fallback_stacking :
    (∀ (ws : List Word) (h : ℚ) (item : Item), item.answer ≠ "" →
      find_prompt_anchor ws h item.prompt = none →
      appProcessItem ws h item = [])
    ∧ (∀ (ws : List Word) (h : ℚ) (pre : List QA) (qa : QA), qa.answer ≠ "" →
      find_question_anchor ws h qa.question = none →
      wfPageInstructions ws h (pre ++ [qa]) =
        wfPageInstructions ws h pre ++
          emitLines 50 (150 - 60 * (unresolvedCount ws h pre : ℚ))
            (pyWrap 90 qa.answer)) := by
  constructor
  · intro ws h item ha hn
    rw [appProcessItem]
    by_cases hskip : item.prompt = "" ∨ item.answer = ""
    · rw [if_pos hskip]
    · rw [if_neg hskip, hn]
  · intro ws h pre qa ha hn
    rw [wfPageInstructions, List.foldl_append, List.foldl_cons, List.foldl_nil]
    set st := pre.foldl (wfProcessItem ws h) (150, []) with hst
    have hfy : st.1 = 150 - 60 * (unresolvedCount ws h pre : ℚ) :=
      wfFold_fst ws h pre 150 []
    have hstep : wfProcessItem ws h st qa =
        (st.1 - 60, st.2 ++ emitLines 50 st.1 (pyWrap 90 qa.answer)) := by
      rw [wfProcessItem, if_neg ha, hn]
    rw [hstep]
    show st.2 ++ emitLines 50 st.1 (pyWrap 90 qa.answer) = _
    rw [hfy, hst]
    rfl

theorem c5_fallback_stacking_witness :
    wfPageInstructions [] 792 ([⟨"", "a"⟩] ++ [⟨"", "b"⟩]) =
      wfPageInstructions [] 792 [⟨"", "a"⟩] ++
        emitLines 50 (150 - 60 * (unresolvedCount [] 792 [⟨"", "a"⟩] : ℚ))
          (pyWrap 90 "b") :=
  c5_fallback_stacking.2 [] 792 [⟨"", "a"⟩] ⟨"", "b"⟩
    (of_decide_eq_true (by with_unfolding_all rfl))
    (of_decide_eq_true (by with_unfolding_all rfl))

/-- C6: every draw instruction actually emitted — by the shared emission
loop, by app.py's page loop and by worksheet_filler.py's page loop — has
y ≥ 40, and a line whose decremented cursor falls below 40 is silently
dropped together with all remaining lines of that answer; the emission is a
total function, so overflow can never raise. -/
theorem c6_bottom_margin :
    (∀ (x y : ℚ) (ls : List String) (d : DrawInstruction),
        d ∈ emitLines x y ls → 40 ≤ d.y)
    ∧ (∀ (ws : List Word) (h : ℚ) (items : List Item) (d : DrawInstruction),
        d ∈ appPageInstructions ws h items → 40 ≤ d.y)
    ∧ (∀ (ws : List Word) (h : ℚ) (items : List QA) (d : DrawInstruction),
        d ∈ wfPageInstructions ws h items → 40 ≤ d.y)
    ∧ (∀ (x y : ℚ) (l : String) (ls : List String),
        y - 12 < 40 → emitLines x y (l :: ls) = []) := by
  refine ⟨fun x y ls d hd => emitLines_y_ge x ls y d hd, ?_, ?_, ?_⟩
  · intro ws h items d hd
    exact appFold_y_ge ws h items [] (by intro e he; cases he) d hd
  · intro ws h items d hd
    exact wfFold_y_ge ws h items (150, []) (by intro e he; cases he) d hd
  · intro x y l ls hy
    exact emitLines_below x y (l :: ls) hy

theorem c6_bottom_margin_witness :
    (40 : ℚ) ≤ (DrawInstruction.mk 50 138 "X").y ∧ emitLines 0 50 ["a", "b"] = [] :=
  ⟨c6_bottom_margin.1 50 150 ["X"] ⟨50, 138, "X"⟩
      (of_decide_eq_true (by with_unfolding_all rfl)),
   c6_bottom_margin.2.2.2 0 50 "a" ["b"]
      (of_decide_eq_true (by with_unfolding_all rfl))⟩

/-- C7: any anchor either resolver returns is computed from the window at the
first index attaining the maximal window score — every earlier window scores
strictly less — so ties go to the earliest occurrence. -/
theorem c7_earliest_window (ws : List Word) (h : ℚ) (p : String) (a : ℚ × ℚ) :
    (find_prompt_anchor ws h p = some a →
      ∃ i, (appScores ws p).getD i 0 = maxList (appScores ws p)
        ∧ (∀ j < i, (appScores ws p).getD j 0 < maxList (appScores ws p))
        ∧ a = (minX0 (appWindowAt ws p i), h - maxBottom (appWindowAt ws p i)))
    ∧ (find_question_anchor ws h p = some a →
      ∃ i, (wfScores ws p).getD i 0 = maxList (wfScores ws p)
        ∧ (∀ j < i, (wfScores ws p).getD j 0 < maxList (wfScores ws p))
        ∧ a = ((ws.getD (i + wfK p - 1) dWord).x0,
               h - (ws.getD (i + wfK p - 1) dWord).bottom)) := by
  constructor
  · intro ha
    rw [find_prompt_anchor_spec] at ha
    by_cases hc : max 3 (appK p - 1) ≤ maxList (appScores ws p)
    · rw [if_pos hc] at ha
      have hM3 : 3 ≤ maxList (appScores ws p) := le_trans (le_max_left _ _) hc
      have hSne : appScores ws p ≠ [] := by
        intro hS
        rw [hS] at hM3
        simp [maxList] at hM3
      have hMmem : maxList (appScores ws p) ∈ appScores ws p := maxList_mem hSne
      refine ⟨firstIdx (maxList (appScores ws p)) (appScores ws p),
        getD_firstIdx hMmem, ?_, (Option.some.inj ha).symm⟩
      intro j hj
      exact lt_of_le_of_ne (getD_le_maxList _ j) (getD_ne_of_lt_firstIdx hMmem j hj)
    · rw [if_neg hc] at ha
      cases ha
  · intro ha
    rw [find_question_anchor_spec] at ha
    by_cases hc : 2 ≤ maxList (wfScores ws p)
    · rw [if_pos hc] at ha
      have hM2 : 2 ≤ maxList (wfScores ws p) := hc
      have hSne : wfScores ws p ≠ [] := by
        intro hS
        rw [hS] at hM2
        simp [maxList] at hM2
      have hMmem : maxList (wfScores ws p) ∈ wfScores ws p := maxList_mem hSne
      refine ⟨firstIdx (maxList (wfScores ws p)) (wfScores ws p),
        getD_firstIdx hMmem, ?_, (Option.some.inj ha).symm⟩
      intro j hj
      exact lt_of_le_of_ne (getD_le_maxList _ j) (getD_ne_of_lt_firstIdx hMmem j hj)
    · rw [if_neg hc] at ha
      cases ha

/-- Concrete page for the C7 witness: the three-token prompt matches fully at
window 0 and again at window 3, a tie on the maximal score 3. -/
def c7Words : List Word :=
  [⟨"alpha", 10, 20⟩, ⟨"beta", 40, 20⟩, ⟨"gamma", 70, 20⟩,
   ⟨"alpha", 10, 120⟩, ⟨"beta", 40, 120⟩, ⟨"gamma", 70, 120⟩]

theorem c7_earliest_window_witness :
    find_prompt_anchor c7Words 792 "alpha beta gamma" = some (10, 772)
    ∧ ∃ i, (appScores c7Words "alpha beta gamma").getD i 0 =
          maxList (appScores c7Words "alpha beta gamma")
        ∧ (∀ j < i, (appScores c7Words "alpha beta gamma").getD j 0 <
            maxList (appScores c7Words "alpha beta gamma"))
        ∧ ((10 : ℚ), (772 : ℚ)) =
            (minX0 (appWindowAt c7Words "alpha beta gamma" i),
             792 - maxBottom (appWindowAt c7Words "alpha beta gamma" i)) :=
  ⟨of_decide_eq_true (by with_unfolding_all rfl),
   (c7_earliest_window c7Words 792 "alpha beta gamma" (10, 772)).1
     (of_decide_eq_true (by with_unfolding_all rfl))⟩

/-- C8 counterexample: in worksheet_filler.py an item whose question field is
empty but whose answer is nonempty is not skipped — the empty question cannot
be anchored, so the answer is drawn in the fallback column. -/
theorem c8_counterexample :
    wfPageInstructions [] 792 [⟨"", "X"⟩] = [⟨50, 138, "X"⟩]
    ∧ wfPageInstructions [] 792 [⟨"", "X"⟩] ≠ [] := by
  constructor
  · with_unfolding_all rfl
  · exact of_decide_eq_false (by with_unfolding_all rfl)

/-- C8 (amended): app.py skips an item whose prompt or answer is missing or
empty; worksheet_filler.py skips only on a missing or empty answer (an empty
question falls through to the fallback column); in both variants malformed
item data is never fatal and every page is still appended. -/
theorem c8_malformed_items :
    (∀ (ws : List Word) (h : ℚ) (item : Item),
      item.prompt = "" ∨ item.answer = "" → appProcessItem ws h item = [])
    ∧ (∀ (ws : List Word) (h : ℚ) (st : ℚ × List DrawInstruction) (qa : QA),
      qa.answer = "" → wfProcessItem ws h st qa = st)
    ∧ (∀ (pages : List Page) (itemsByPage : List (List Item)) (mergeFails : Nat → Bool),
      (overlay_answers_on_pdf_app pages itemsByPage mergeFails).length = pages.length) := by
  refine ⟨?_, ?_, fun pages itemsByPage mergeFails => overlay_app_length _ _ _⟩
  · intro ws h item hm
    rw [appProcessItem, if_pos hm]
  · intro ws h st qa hm
    rw [wfProcessItem, if_pos hm]

theorem c8_malformed_items_witness :
    appProcessItem [] 792 ⟨"", "x"⟩ = []
    ∧ wfProcessItem [] 792 (150, []) ⟨"q", ""⟩ = (150, []) :=
  ⟨c8_malformed_items.1 [] 792 ⟨"", "x"⟩ (Or.inl rfl),
   c8_malformed_items.2.1 [] 792 (150, []) ⟨"q", ""⟩ rfl⟩

/-- The page of the spec's concrete scenario: width 612, height 792, words
Birth, date, colon and an underscore run, with Birth.x0 = 50 and the last
word's bottom = 100. -/
def birthWords : List Word :=
  [⟨"Birth", 50, 60⟩, ⟨"date", 80, 60⟩, ⟨":", 105, 60⟩, ⟨"______", 115, 100⟩]

/-- C9 counterexample: on a page satisfying the scenario's constraints the
worksheet_filler.py resolver anchors at the matched window's last word
"date" (x = 80, y = 792 - date.bottom = 732), not at (50, 692); the app.py
resolver rejects the two-token prompt outright. -/
theorem c9_counterexample :
    find_question_anchor birthWords 792 "Birth date:" = some (80, 732)
    ∧ find_prompt_anchor birthWords 792 "Birth date:" = none
    ∧ ((80 : ℚ), (732 : ℚ)) ≠ ((50 : ℚ), (692 : ℚ)) := by
  refine ⟨?_, ?_, ?_⟩
  · with_unfolding_all rfl
  · with_unfolding_all rfl
  · exact of_decide_eq_false (by with_unfolding_all rfl)

/-- C9 (amended): in the scenario page, worksheet_filler.py resolves
"Birth date:" to the matched window's last word "date", giving
x = date.x0 = 80 and y = 792 - date.bottom = 732, and the first drawn line
of the answer "1798" lands at y = 732 - 15 - 12 = 705; app.py's resolver
returns absent because the two-token snippet cannot reach threshold 3. -/
theorem c9_scenario :
    find_question_anchor birthWords 792 "Birth date:" = some (80, 732)
    ∧ wfPageInstructions birthWords 792 [⟨"Birth date:", "1798"⟩] = [⟨80, 705, "1798"⟩]
    ∧ find_prompt_anchor birthWords 792 "Birth date:" = none := by
  refine ⟨?_, ?_, ?_⟩ <;> with_unfolding_all rfl

/-- C10: on one worksheet_filler.py page, once two items have already taken
the fallback branch the cursor is at 150 - 120 = 30, so any further
unresolved item's first line would sit at 18 < 40 and nothing at all is
drawn for it: appending such an item leaves the page's instructions
unchanged. -/
theorem c10_third_unresolved_dropped (ws : List Word) (h : ℚ) (items : List QA)
    (qa : QA) (hc : 2 ≤ unresolvedCount ws h items) (ha : qa.answer ≠ "")
    (hn : find_question_anchor ws h qa.question = none) :
    wfPageInstructions ws h (items ++ [qa]) = wfPageInstructions ws h items := by
  rw [wfPageInstructions, List.foldl_append, List.foldl_cons, List.foldl_nil]
  set st := items.foldl (wfProcessItem ws h) (150, []) with hst
  have hfy : st.1 = 150 - 60 * (unresolvedCount ws h items : ℚ) :=
    wfFold_fst ws h items 150 []
  have hstep : wfProcessItem ws h st qa =
      (st.1 - 60, st.2 ++ emitLines 50 st.1 (pyWrap 90 qa.answer)) := by
    rw [wfProcessItem, if_neg ha, hn]
  rw [hstep]
  show st.2 ++ emitLines 50 st.1 (pyWrap 90 qa.answer) = _
  have hlow : st.1 - 12 < 40 := by
    rw [hfy]
    have h2 : (2 : ℚ) ≤ (unresolvedCount ws h items : ℚ) := by exact_mod_cast hc
    linarith
  rw [emitLines_below 50 st.1 (pyWrap 90 qa.answer) hlow, List.append_nil, hst]
  rfl

theorem c10_third_unresolved_dropped_witness :
    2 ≤ unresolvedCount [] 792 [⟨"", "a"⟩, ⟨"", "b"⟩]
    ∧ wfPageInstructions [] 792 ([⟨"", "a"⟩, ⟨"", "b"⟩] ++ [⟨"", "c"⟩])
        = wfPageInstructions [] 792 [⟨"", "a"⟩, ⟨"", "b"⟩] :=
  ⟨of_decide_eq_true (by with_unfolding_all rfl),
   c10_third_unresolved_dropped [] 792 [⟨"", "a"⟩, ⟨"", "b"⟩] ⟨"", "c"⟩
     (of_decide_eq_true (by with_unfolding_all rfl))
     (of_decide_eq_true (by with_unfolding_all rfl))
     (of_decide_eq_true (by with_unfolding_all rfl))⟩
